import Mathlib

/-!
Verification of `src/Intro Computer Programming/Rust/src/projects/task1.rs`:
the interactive employee-registry command loop
(`alphabetical_employees_interface`) and the `pig_latin` transform.

Strings are modelled as lists of characters (`Str := List Char`).  The
Rust standard-library string operations used by the program
(`str::trim`, `str::to_lowercase`, `str::starts_with`,
`str::eq_ignore_ascii_case`, `str::split_whitespace`, `Vec::sort`) are
embedded as recursive functions on `Str`.  Unicode-specific behaviour is
modelled at the granularity the program exercises: lowercasing is ASCII
lowercasing (Rust's `to_lowercase` agrees with it on ASCII, and
`eq_ignore_ascii_case` is exactly ASCII-case-insensitive comparison),
and whitespace is `Char.isWhitespace` (the ASCII subset of Rust's
`char::is_whitespace`).  Rust `String` comparison (`Vec::sort` on
`Vec<String>`) is byte-wise lexicographic on UTF-8, which coincides with
code-point-wise lexicographic order, modelled by `strLe`.

The `HashMap<String, Vec<String>>` registry is modelled as an
association list with unique keys; `entry(k).or_default().push(v)`
appends to the existing entry or inserts a new singleton entry.
`HashMap` iteration order (used only by `show all`) is unspecified in
Rust; the model iterates in insertion order, and no theorem below
depends on a particular order beyond what any order satisfies.
-/

namespace Task1

/-- Strings, modelled as lists of characters. -/
abbrev Str := List Char

/-- Model of `str::trim`: drop whitespace from both ends. -/
def trimStr (s : Str) : Str :=
  ((s.dropWhile Char.isWhitespace).reverse.dropWhile Char.isWhitespace).reverse

/-- Model of `str::to_lowercase` restricted to ASCII lowercasing
(`Char.toLower` lowercases exactly the ASCII letters, which is also the
behaviour of Rust `to_lowercase` on ASCII input). -/
def toLowerS (s : Str) : Str := s.map Char.toLower

/-- Model of `str::starts_with(pat)`: `startsWithStr s pat`. -/
def startsWithStr : Str → Str → Bool
  | _, [] => true
  | [], _ :: _ => false
  | c :: cs, p :: ps => c = p && startsWithStr cs ps

/-- Model of `str::eq_ignore_ascii_case`. -/
def eqIgnoreCase (s t : Str) : Bool := toLowerS s == toLowerS t

/-- Tokenizer worker: `cur` holds the (reversed) characters of the token
currently being scanned. -/
def splitWSAux : Str → Str → List Str
  | [], cur => if cur.isEmpty then [] else [cur.reverse]
  | c :: cs, cur =>
    if c.isWhitespace then
      if cur.isEmpty then splitWSAux cs [] else cur.reverse :: splitWSAux cs []
    else
      splitWSAux cs (c :: cur)

/-- Model of `str::split_whitespace`: maximal runs of non-whitespace
characters, in order; no empty tokens. -/
def splitWS (s : Str) : List Str := splitWSAux s []

/-- Byte-wise (equivalently, code-point-wise) lexicographic order on
strings, the order of `Ord for String` in Rust. -/
def strLe : Str → Str → Bool
  | [], _ => true
  | _ :: _, [] => false
  | a :: as, b :: bs => if a = b then strLe as bs else decide (a < b)

/-- `strLe` as a relation. -/
def strLeP (a b : Str) : Prop := strLe a b = true

instance : DecidableRel strLeP :=
  fun a b => inferInstanceAs (Decidable (strLe a b = true))

/-- Model of `Vec::sort` on `Vec<String>`: a sort by `strLe`.  Rust uses
a stable merge sort, but `strLe` is antisymmetric, so every sorting
algorithm produces the same output; insertion sort is used here. -/
def sortStrs (l : List Str) : List Str := List.insertionSort strLeP l

/-- The registry `HashMap<String, Vec<String>>`, modelled as an
association list with unique keys mapping a department name to the
employee names added to it, in insertion order. -/
abbrev Registry := List (Str × List Str)

/-- Model of `company.get(dept)`. -/
def getDept (r : Registry) (d : Str) : Option (List Str) :=
  (r.find? (fun p => p.1 == d)).map (fun p => p.2)

/-- Model of `company.entry(dept.clone()).or_default().push(name.clone())`:
append `name` to the department's list, creating the department (at the
end, though key order is unobservable for a `HashMap`) if absent. -/
def addEmp (r : Registry) (d n : Str) : Registry :=
  if r.any (fun p => p.1 == d) then
    r.map (fun p => if p.1 == d then (p.1, p.2 ++ [n]) else p)
  else
    r ++ [(d, [n])]

/-- One printed message of the loop (the exact wording of each message,
emoji included, is collapsed to a constructor; name and department
values appear printed as entered). -/
inductive Msg where
  | prompt
  | added (name dept : Str)
  | invalidFormat
  | deptHeader (dept : Str)
  | empName (name : Str)
  | notFound
  | unknown
deriving DecidableEq, Repr

/-- The `show all` body: for each department of the registry (model
iteration order: insertion order), its header followed by its employees
sorted ascending. -/
def showAllOutput (r : Registry) : List Msg :=
  (r.map (fun p => Msg.deptHeader p.1 :: (sortStrs p.2).map Msg.empName)).flatten

/-- One iteration body of `alphabetical_employees_interface` after the
line has been read: trim the input, then dispatch exactly as the
`if`/`else if` chain of the source does.  Returns the new registry, the
messages printed by this iteration (prompt excluded), and whether the
loop `break`s. -/
def processLine (company : Registry) (raw : Str) : Registry × List Msg × Bool :=
  let input := trimStr raw
  if eqIgnoreCase input ['e', 'x', 'i', 't'] then
    (company, [], true)
  else if startsWithStr (toLowerS input) ['a', 'd', 'd', ' '] then
    let parts := splitWS input
    if 4 ≤ parts.length ∧ eqIgnoreCase (parts.getD 2 []) ['t', 'o'] then
      let name := parts.getD 1 []
      let dept := parts.getD 3 []
      (addEmp company dept name, [Msg.added name dept], false)
    else
      (company, [Msg.invalidFormat], false)
  else if startsWithStr (toLowerS input) ['s', 'h', 'o', 'w', ' ', 'a', 'l', 'l'] then
    (company, showAllOutput company, false)
  else if startsWithStr (toLowerS input) ['s', 'h', 'o', 'w', ' '] then
    let parts := splitWS input
    if parts.length = 2 then
      let dept := parts.getD 1 []
      match getDept company dept with
      | some employees =>
        (company, Msg.deptHeader dept :: (sortStrs employees).map Msg.empName, false)
      | none => (company, [Msg.notFound], false)
    else
      (company, [], false)
  else
    (company, [Msg.unknown], false)

/-- The loop: each iteration prints the menu/prompt (collapsed to
`Msg.prompt`), reads the next line, and processes it; it stops on
`break` (third component `true`) or when input is exhausted. -/
def runLoop (company : Registry) : List Str → Registry × List Msg × Bool
  | [] => (company, [], false)
  | l :: ls =>
    let step := processLine company l
    if step.2.2 then
      (step.1, Msg.prompt :: step.2.1, true)
    else
      let rest := runLoop step.1 ls
      (rest.1, Msg.prompt :: step.2.1 ++ rest.2.1, rest.2.2)

/-- A single whitespace-delimited token: nonempty, no whitespace. -/
def isToken (w : Str) : Bool := !w.isEmpty && w.all (fun c => !c.isWhitespace)

/-- The command line `add <name> to <dept>` (lowercase keywords). -/
def mkAddLine (n d : Str) : Str :=
  ['a', 'd', 'd', ' '] ++ n ++ [' ', 't', 'o', ' '] ++ d

/-- The command line `show <dept>`. -/
def mkShowLine (d : Str) : Str := ['s', 'h', 'o', 'w', ' '] ++ d

/-- The names added to department `d` by a list of `(name, dept)` add
requests, in order. -/
def addedNames (adds : List (Str × Str)) (d : Str) : List Str :=
  (adds.filter (fun p => p.2 == d)).map (fun p => p.1)

/-- The `add <name> to <dept>` line with uppercase keywords. -/
def mkAddLineU (n d : Str) : Str :=
  ['A', 'D', 'D', ' '] ++ n ++ [' ', 'T', 'O', ' '] ++ d

/-- The condition under which a line is an accepted `add` command. -/
def acceptedAdd (l : Str) : Bool :=
  let input := trimStr l
  !(eqIgnoreCase input ['e', 'x', 'i', 't']) &&
    startsWithStr (toLowerS input) ['a', 'd', 'd', ' '] &&
    decide (4 ≤ (splitWS input).length) &&
    eqIgnoreCase ((splitWS input).getD 2 []) ['t', 'o']

/-- The department-nonempty invariant of the registry. -/
def allDeptsNonempty (r : Registry) : Bool := r.all (fun p => !p.2.isEmpty)

/-- The registry reached by a sequence of `(name, dept)` insertions. -/
def buildReg (adds : List (Str × Str)) : Registry :=
  adds.foldl (fun r p => addEmp r p.2 p.1) []

/-- The `VOWELS` table of `pig_latin`. -/
def vowels : List Char := ['a', 'e', 'i', 'o', 'u', 'A', 'E', 'I', 'O', 'U']

/-- One word's transformation inside `pig_latin`.  `none` models a
panic: `&word[1..]` panics when byte index 1 is not a character
boundary, i.e. when the word's first character occupies more than one
UTF-8 byte (such a character is never in `VOWELS`, so the slicing
branch is always reached for it).  Each produced chunk carries the
trailing space pushed by the source's `push_str`. -/
def pigLatinWord (w : Str) : Option Str :=
  match w with
  | [] => none
  | c :: cs =>
    if c ∈ vowels then
      some ((c :: cs) ++ ['-', 'h', 'a', 'y', ' '])
    else if c.utf8Size = 1 then
      some (cs ++ ['-', c, 'a', 'y', ' '])
    else
      none

/-- The chunks pushed for each word, stopping at the first panic. -/
def pigLatinChunks : List Str → Option (List Str)
  | [] => some []
  | w :: ws =>
    match pigLatinWord w, pigLatinChunks ws with
    | some c, some cs => some (c :: cs)
    | _, _ => none

/-- Model of `pig_latin`: the string it prints (the concatenated chunks,
trimmed), or `none` if the byte slicing panics. -/
def pig_latin (sentence : Str) : Option Str :=
  match pigLatinChunks (splitWS sentence) with
  | none => none
  | some chunks => some (trimStr chunks.flatten)

/-! ### String-operation lemmas -/

theorem startsWithStr_iff (p : Str) : ∀ s : Str,
    startsWithStr s p = true ↔ ∃ t, s = p ++ t := by
  induction p with
  | nil =>
    intro s
    simp [startsWithStr]
  | cons c cs ih =>
    intro s
    cases s with
    | nil =>
      simp [startsWithStr]
    | cons a as =>
      simp only [startsWithStr, Bool.and_eq_true, decide_eq_true_eq, ih,
        List.cons_append, List.cons.injEq]
      constructor
      · rintro ⟨rfl, t, rfl⟩
        exact ⟨t, rfl, rfl⟩
      · rintro ⟨t, rfl, rfl⟩
        exact ⟨rfl, t, rfl⟩

theorem toLowerS_append (a b : Str) :
    toLowerS (a ++ b) = toLowerS a ++ toLowerS b := by
  simp [toLowerS]

theorem eqIgnoreCase_iff (s t : Str) :
    eqIgnoreCase s t = true ↔ toLowerS s = toLowerS t := by
  simp [eqIgnoreCase]

theorem isToken_parts (w : Str) (hw : isToken w = true) :
    w ≠ [] ∧ w.all (fun c => !c.isWhitespace) = true := by
  unfold isToken at hw
  rw [Bool.and_eq_true] at hw
  refine ⟨?_, hw.2⟩
  intro h
  subst h
  simp at hw

theorem splitWSAux_token (w : Str) (hw : w.all (fun c => !c.isWhitespace) = true) :
    ∀ s cur, splitWSAux (w ++ s) cur = splitWSAux s (w.reverse ++ cur) := by
  induction w with
  | nil => intro s cur; simp
  | cons c cs ih =>
    intro s cur
    simp only [List.all_cons, Bool.and_eq_true, Bool.not_eq_true'] at hw
    rw [List.cons_append, splitWSAux, if_neg (by simp [hw.1]), ih hw.2]
    simp

theorem reverse_notEmpty (w : Str) (hne : w ≠ []) :
    (w.reverse ++ []).isEmpty = false := by
  rw [List.append_nil]
  cases w with
  | nil => exact absurd rfl hne
  | cons c cs => simp

theorem splitWS_token_cons (w s : Str) (hw : isToken w = true) :
    splitWS (w ++ ' ' :: s) = w :: splitWS s := by
  obtain ⟨hne, hall⟩ := isToken_parts w hw
  rw [splitWS, splitWSAux_token w hall]
  simp [splitWSAux, reverse_notEmpty w hne, splitWS, hne]

theorem splitWS_token (w : Str) (hw : isToken w = true) : splitWS w = [w] := by
  obtain ⟨hne, hall⟩ := isToken_parts w hw
  have h0 : splitWS w = splitWSAux (w ++ []) [] := by rw [List.append_nil, splitWS]
  rw [h0, splitWSAux_token w hall]
  simp [splitWSAux, reverse_notEmpty w hne, hne]

theorem splitWS_cons_ws (c : Char) (s : Str) (hc : c.isWhitespace = true) :
    splitWS (c :: s) = splitWS s := by
  simp [splitWS, splitWSAux, hc]

theorem splitWS_token_cons_ws (w s : Str) (c : Char) (hw : isToken w = true)
    (hc : c.isWhitespace = true) :
    splitWS (w ++ c :: s) = w :: splitWS s := by
  obtain ⟨hne, hall⟩ := isToken_parts w hw
  rw [splitWS, splitWSAux_token w hall]
  simp [splitWSAux, hc, reverse_notEmpty w hne, splitWS, hne]

theorem dropWhile_head_false (p : Char → Bool) : ∀ (xs : Str) (y : Char) (ys : Str),
    xs.dropWhile p = y :: ys → p y = false := by
  intro xs
  induction xs with
  | nil => intro y ys h; simp at h
  | cons x xs ih =>
    intro y ys h
    rw [List.dropWhile_cons] at h
    by_cases hx : p x = true
    · rw [if_pos hx] at h
      exact ih y ys h
    · rw [if_neg hx] at h
      rw [List.cons.injEq] at h
      rw [← h.1]
      exact Bool.eq_false_iff.mpr hx

theorem splitWS_cons_not_ws (c : Char) (cs : Str) (hc : c.isWhitespace = false) :
    splitWS (c :: cs) =
      (c :: cs.takeWhile (fun d => !d.isWhitespace)) ::
        splitWS (cs.dropWhile (fun d => !d.isWhitespace)) := by
  have htok : isToken (c :: cs.takeWhile (fun d => !d.isWhitespace)) = true := by
    unfold isToken
    rw [Bool.and_eq_true]
    refine ⟨by simp, ?_⟩
    rw [List.all_cons, Bool.and_eq_true]
    exact ⟨by simp [hc], List.all_takeWhile⟩
  have hdecomp : c :: cs =
      (c :: cs.takeWhile (fun d => !d.isWhitespace)) ++
        cs.dropWhile (fun d => !d.isWhitespace) := by
    rw [List.cons_append, List.takeWhile_append_dropWhile]
  cases hrest : cs.dropWhile (fun d => !d.isWhitespace) with
  | nil =>
    rw [hrest, List.append_nil] at hdecomp
    conv_lhs => rw [hdecomp]
    rw [splitWS_token _ htok]
    rfl
  | cons r rest' =>
    have hr : r.isWhitespace = true := by
      have hpr := dropWhile_head_false (fun d => !d.isWhitespace) cs r rest' hrest
      simpa using hpr
    rw [hrest] at hdecomp
    conv_lhs => rw [hdecomp]
    rw [splitWS_token_cons_ws _ _ r htok hr, splitWS_cons_ws r rest' hr]

theorem trimStr_head_not_ws (l : Str) (c : Char) (h : (trimStr l).head? = some c) :
    c.isWhitespace = false := by
  have hsuf : ((l.dropWhile Char.isWhitespace).reverse.dropWhile Char.isWhitespace) <:+
      (l.dropWhile Char.isWhitespace).reverse := List.dropWhile_suffix _
  obtain ⟨pre, hpre⟩ := hsuf
  have hD : trimStr l ++ pre.reverse = l.dropWhile Char.isWhitespace := by
    have h2 : (pre ++ (l.dropWhile Char.isWhitespace).reverse.dropWhile Char.isWhitespace).reverse =
        l.dropWhile Char.isWhitespace := by
      rw [hpre, List.reverse_reverse]
    rw [List.reverse_append] at h2
    exact h2
  cases htl : trimStr l with
  | nil => rw [htl] at h; simp at h
  | cons c' rest =>
    rw [htl] at h
    simp only [List.head?_cons, Option.some.injEq] at h
    rw [htl, h] at hD
    exact dropWhile_head_false Char.isWhitespace l c (rest ++ pre.reverse)
      (by rw [← hD]; simp)

theorem dropWhile_eq_self_of_head (l : Str)
    (h : ∀ c, l.head? = some c → c.isWhitespace = false) :
    l.dropWhile Char.isWhitespace = l := by
  cases l with
  | nil => rfl
  | cons c cs =>
    rw [List.dropWhile_cons, if_neg]
    simp [h c rfl]

theorem trimStr_eq_self (l : Str)
    (h1 : ∀ c, l.head? = some c → c.isWhitespace = false)
    (h2 : ∀ c, l.getLast? = some c → c.isWhitespace = false) :
    trimStr l = l := by
  unfold trimStr
  rw [dropWhile_eq_self_of_head l h1]
  rw [dropWhile_eq_self_of_head l.reverse (fun c hc => h2 c (by rwa [List.head?_reverse] at hc))]
  exact List.reverse_reverse l

theorem token_getLast_not_ws (w : Str) (hw : isToken w = true) :
    ∀ c, w.getLast? = some c → c.isWhitespace = false := by
  obtain ⟨hne, hall⟩ := isToken_parts w hw
  intro c hc
  have hmem : c ∈ w := List.mem_of_getLast?_eq_some hc
  rw [List.all_eq_true] at hall
  simpa using hall c hmem

/-! ### Registry lemmas -/

theorem getDept_none_iff (r : Registry) (d : Str) :
    getDept r d = none ↔ r.any (fun p => p.1 == d) = false := by
  simp only [getDept, Option.map_eq_none', List.find?_eq_none, List.any_eq_false]

theorem getDept_cons (q : Str × List Str) (t : Registry) (d' : Str) :
    getDept (q :: t) d' = if q.1 = d' then some q.2 else getDept t d' := by
  by_cases h : q.1 = d' <;> simp [getDept, List.find?_cons, h]

theorem getDept_mapUpdate (r : Registry) (d n d' : Str) :
    getDept (r.map (fun p => if p.1 == d then (p.1, p.2 ++ [n]) else p)) d' =
      if d' = d then (getDept r d).map (fun l => l ++ [n]) else getDept r d' := by
  induction r with
  | nil => simp [getDept]
  | cons p rs ih =>
    rw [List.map_cons]
    by_cases hpd : p.1 = d
    · rw [if_pos (by simpa using hpd)]
      by_cases hd' : d' = d
      · subst hd'
        rw [if_pos rfl, getDept_cons, getDept_cons, if_pos hpd, if_pos hpd]
        rfl
      · have hne : ¬(p.1 : Str) = d' := by
          intro h
          exact hd' (h.symm.trans hpd)
        rw [if_neg hd', getDept_cons, getDept_cons, if_neg hne, if_neg hne, ih, if_neg hd']
    · rw [if_neg (by simpa using hpd)]
      by_cases hd' : d' = d
      · subst hd'
        rw [if_pos rfl, getDept_cons, getDept_cons, if_neg hpd, if_neg hpd, ih, if_pos rfl]
      · by_cases hpd' : p.1 = d'
        · rw [if_neg hd', getDept_cons, getDept_cons, if_pos hpd', if_pos hpd']
        · rw [if_neg hd', getDept_cons, getDept_cons, if_neg hpd', if_neg hpd', ih, if_neg hd']

theorem getDept_append_new (r : Registry) (d n d' : Str) (h : getDept r d = none) :
    getDept (r ++ [(d, [n])]) d' =
      if d' = d then some [n] else getDept r d' := by
  induction r with
  | nil =>
    by_cases hd' : d' = d
    · rw [List.nil_append, getDept_cons, if_pos hd'.symm, if_pos hd']
    · have hne : ¬(d : Str) = d' := by
        intro hh
        exact hd' hh.symm
      rw [List.nil_append, getDept_cons, if_neg hne, if_neg hd']
  | cons p rs ih =>
    rw [getDept_cons] at h
    by_cases hpd : p.1 = d
    · rw [if_pos hpd] at h
      exact absurd h (by simp)
    · rw [if_neg hpd] at h
      rw [List.cons_append, getDept_cons, getDept_cons]
      by_cases hpd' : p.1 = d'
      · have hne : ¬(d' : Str) = d := by
          intro hh
          exact hpd (hpd'.trans hh)
        rw [if_pos hpd', if_pos hpd', if_neg hne]
      · rw [if_neg hpd', if_neg hpd', ih h]

theorem getDept_addEmp (r : Registry) (d n d' : Str) :
    getDept (addEmp r d n) d' =
      if d' = d then some ((getDept r d).getD [] ++ [n]) else getDept r d' := by
  unfold addEmp
  by_cases hany : r.any (fun p => p.1 == d) = true
  · rw [if_pos hany, getDept_mapUpdate]
    by_cases hd' : d' = d
    · rw [if_pos hd', if_pos hd']
      cases hfind : getDept r d with
      | none =>
        rw [getDept_none_iff] at hfind
        rw [hfind] at hany
        exact absurd hany (by simp)
      | some l => simp
    · rw [if_neg hd', if_neg hd']
  · rw [if_neg hany]
    have hnone : getDept r d = none := by
      rw [getDept_none_iff]
      exact Bool.eq_false_iff.mpr hany
    rw [getDept_append_new r d n d' hnone]
    by_cases hd' : d' = d
    · rw [if_pos hd', if_pos hd', hnone]
      rfl
    · rw [if_neg hd', if_neg hd']

theorem getDept_foldl (adds : List (Str × Str)) (d : Str) : ∀ r : Registry,
    getDept (adds.foldl (fun r p => addEmp r p.2 p.1) r) d =
      match getDept r d with
      | some l => some (l ++ addedNames adds d)
      | none => if addedNames adds d = [] then none else some (addedNames adds d) := by
  induction adds with
  | nil =>
    intro r
    cases h : getDept r d <;> simp [addedNames, h]
  | cons p rest ih =>
    intro r
    rw [List.foldl_cons, ih]
    by_cases hpd : p.2 = d
    · have haddn : addedNames (p :: rest) d = p.1 :: addedNames rest d := by
        simp [addedNames, hpd]
      rw [haddn, getDept_addEmp, if_pos hpd.symm]
      cases h : getDept r d <;> simp [hpd, h]
    · have haddn : addedNames (p :: rest) d = addedNames rest d := by
        simp only [addedNames, List.filter_cons]
        rw [if_neg (by simpa using hpd)]
      rw [haddn, getDept_addEmp, if_neg (fun hh => hpd hh.symm)]

theorem getDept_buildReg (adds : List (Str × Str)) (d : Str) :
    getDept (buildReg adds) d =
      if addedNames adds d = [] then none else some (addedNames adds d) := by
  rw [buildReg, getDept_foldl]
  simp [getDept]

/-! ### Order lemmas for `strLe` -/

theorem strLe_total : ∀ a b : Str, strLe a b = true ∨ strLe b a = true := by
  intro a
  induction a with
  | nil => intro b; left; rfl
  | cons x xs ih =>
    intro b
    cases b with
    | nil => right; rfl
    | cons y ys =>
      by_cases hxy : x = y
      · subst hxy
        rcases ih ys with h | h
        · left; simpa [strLe] using h
        · right; simpa [strLe] using h
      · rcases lt_trichotomy x y with h | h | h
        · left; simp [strLe, hxy, h]
        · exact absurd h hxy
        · right
          have hyx : ¬y = x := by
            intro hh
            exact hxy hh.symm
          simp [strLe, hyx, h]

theorem strLe_trans : ∀ a b c : Str,
    strLe a b = true → strLe b c = true → strLe a c = true := by
  intro a
  induction a with
  | nil => intro b c _ _; rfl
  | cons x xs ih =>
    intro b c hab hbc
    cases b with
    | nil => simp [strLe] at hab
    | cons y ys =>
      cases c with
      | nil => simp [strLe] at hbc
      | cons z zs =>
        by_cases hxy : x = y <;> by_cases hyz : y = z
        · subst hxy; subst hyz
          simp only [strLe, if_pos rfl] at hab hbc ⊢
          exact ih ys zs hab hbc
        · subst hxy
          simp only [strLe, if_pos rfl, if_neg hyz] at hbc
          simp only [strLe, if_neg hyz]
          exact hbc
        · subst hyz
          simp only [strLe, if_neg hxy] at hab
          simp only [strLe, if_neg hxy]
          exact hab
        · simp only [strLe, if_neg hxy] at hab
          simp only [strLe, if_neg hyz] at hbc
          have hxz : x < z := lt_trans (by simpa using hab) (by simpa using hbc)
          simp only [strLe, if_neg (ne_of_lt hxz)]
          simpa using hxz

instance : IsTotal Str strLeP := ⟨strLe_total⟩

instance : IsTrans Str strLeP :=
  ⟨fun a b c hab hbc => strLe_trans a b c hab hbc⟩

theorem sortStrs_perm (l : List Str) : (sortStrs l).Perm l :=
  List.perm_insertionSort strLeP l

theorem sortStrs_sorted (l : List Str) : List.Sorted strLeP (sortStrs l) :=
  List.sorted_insertionSort strLeP l

/-! ### `processLine` on well-formed command lines -/

theorem startsWithStr_cancel (p : Str) : ∀ s q : Str,
    startsWithStr (p ++ s) (p ++ q) = startsWithStr s q := by
  induction p with
  | nil => intro s q; rfl
  | cons c cs ih =>
    intro s q
    simp [startsWithStr, ih]

theorem trim_line_eq (c : Char) (x d : Str) (hc : c.isWhitespace = false)
    (hd : isToken d = true) :
    trimStr ((c :: x) ++ d) = (c :: x) ++ d := by
  obtain ⟨hne, _⟩ := isToken_parts d hd
  apply trimStr_eq_self
  · intro a ha
    simp only [List.cons_append, List.head?_cons, Option.some.injEq] at ha
    rw [← ha]
    exact hc
  · intro a ha
    rw [List.getLast?_append_of_ne_nil _ hne] at ha
    exact token_getLast_not_ws d hd a ha

theorem processLine_addLine (r : Registry) (v t n d : Str)
    (hv : isToken v = true) (ht : isToken t = true)
    (hn : isToken n = true) (hd : isToken d = true)
    (hlv : toLowerS v = ['a', 'd', 'd']) (hlt : toLowerS t = ['t', 'o']) :
    processLine r (v ++ ' ' :: (n ++ ' ' :: (t ++ ' ' :: d))) =
      (addEmp r d n, [Msg.added n d], false) := by
  obtain ⟨hvne, hvall⟩ := isToken_parts v hv
  set L : Str := v ++ ' ' :: (n ++ ' ' :: (t ++ ' ' :: d)) with hL
  obtain ⟨c, cs, hv0⟩ : ∃ c cs, v = c :: cs := by
    cases v with
    | nil => exact absurd rfl hvne
    | cons a as => exact ⟨a, as, rfl⟩
  have hcws : c.isWhitespace = false := by
    rw [hv0] at hvall
    simpa using (List.all_eq_true.mp hvall c (by simp)).symm.symm
  have htrim : trimStr L = L := by
    have hshape : L = (c :: (cs ++ ' ' :: (n ++ ' ' :: (t ++ [' '])))) ++ d := by
      rw [hL, hv0]
      simp
    rw [hshape]
    exact trim_line_eq c _ d hcws hd
  have hlow : toLowerS L = ['a', 'd', 'd', ' '] ++ toLowerS (n ++ ' ' :: (t ++ ' ' :: d)) := by
    rw [hL, toLowerS_append, hlv]
    simp [toLowerS]
  have hexit : eqIgnoreCase L ['e', 'x', 'i', 't'] = false := by
    rw [Bool.eq_false_iff]
    intro h
    rw [eqIgnoreCase_iff, hlow] at h
    have : toLowerS ['e', 'x', 'i', 't'] = ['e', 'x', 'i', 't'] := by decide
    rw [this] at h
    simp at h
  have hstarts : startsWithStr (toLowerS L) ['a', 'd', 'd', ' '] = true := by
    rw [startsWithStr_iff]
    exact ⟨_, hlow⟩
  have hsplit : splitWS L = [v, n, t, d] := by
    rw [hL, splitWS_token_cons v _ hv, splitWS_token_cons n _ hn,
      splitWS_token_cons t _ ht, splitWS_token d hd]
  have hto : eqIgnoreCase t ['t', 'o'] = true := by
    rw [eqIgnoreCase_iff, hlt]
    decide
  simp [processLine, htrim, hexit, hstarts, hsplit, hto]

theorem processLine_showLine (r : Registry) (d : Str) (hd : isToken d = true)
    (hall : startsWithStr (toLowerS d) ['a', 'l', 'l'] = false) :
    processLine r (mkShowLine d) =
      (r, (match getDept r d with
           | some employees => Msg.deptHeader d :: (sortStrs employees).map Msg.empName
           | none => [Msg.notFound]), false) := by
  have hshape : mkShowLine d = ('s' :: (['h', 'o', 'w'] ++ [' '])) ++ d := by
    simp [mkShowLine]
  have htrim : trimStr (mkShowLine d) = mkShowLine d := by
    rw [hshape]
    exact trim_line_eq 's' _ d (by decide) hd
  have hlow : toLowerS (mkShowLine d) = ['s', 'h', 'o', 'w', ' '] ++ toLowerS d := by
    have h5 : toLowerS ['s', 'h', 'o', 'w', ' '] = ['s', 'h', 'o', 'w', ' '] := by decide
    rw [mkShowLine, toLowerS_append, h5]
  have hexit : eqIgnoreCase (mkShowLine d) ['e', 'x', 'i', 't'] = false := by
    rw [Bool.eq_false_iff]
    intro h
    rw [eqIgnoreCase_iff, hlow] at h
    have : toLowerS ['e', 'x', 'i', 't'] = ['e', 'x', 'i', 't'] := by decide
    rw [this] at h
    simp at h
  have hadd : startsWithStr (toLowerS (mkShowLine d)) ['a', 'd', 'd', ' '] = false := by
    rw [Bool.eq_false_iff]
    intro h
    rw [startsWithStr_iff] at h
    obtain ⟨u, hu⟩ := h
    rw [hlow] at hu
    simp at hu
  have hsa : startsWithStr (toLowerS (mkShowLine d)) ['s', 'h', 'o', 'w', ' ', 'a', 'l', 'l'] = false := by
    rw [hlow]
    have : (['s', 'h', 'o', 'w', ' ', 'a', 'l', 'l'] : Str) =
        ['s', 'h', 'o', 'w', ' '] ++ ['a', 'l', 'l'] := by decide
    rw [this, startsWithStr_cancel]
    exact hall
  have hsp : startsWithStr (toLowerS (mkShowLine d)) ['s', 'h', 'o', 'w', ' '] = true := by
    rw [startsWithStr_iff]
    exact ⟨_, hlow⟩
  have hsplit : splitWS (mkShowLine d) = [['s', 'h', 'o', 'w'], d] := by
    have : mkShowLine d = ['s', 'h', 'o', 'w'] ++ ' ' :: d := by simp [mkShowLine]
    rw [this, splitWS_token_cons _ _ (by decide), splitWS_token d hd]
  cases hget : getDept r d <;>
    simp [processLine, htrim, hexit, hadd, hsa, hsp, hsplit, hget]

/-! ### Branch behaviour of `processLine` -/

theorem processLine_exit (r : Registry) (l : Str)
    (h : eqIgnoreCase (trimStr l) ['e', 'x', 'i', 't'] = true) :
    processLine r l = (r, [], true) := by
  simp [processLine, h]

theorem processLine_term_iff (r : Registry) (l : Str) :
    (processLine r l).2.2 = true ↔ eqIgnoreCase (trimStr l) ['e', 'x', 'i', 't'] = true := by
  simp only [processLine]
  split
  · simp_all
  · split
    · split <;> simp_all
    · split
      · simp_all
      · split
        · split
          · split <;> simp_all
          · simp_all
        · simp_all

theorem processLine_showAllLine (r : Registry) (l : Str)
    (h : startsWithStr (toLowerS (trimStr l))
      ['s', 'h', 'o', 'w', ' ', 'a', 'l', 'l'] = true) :
    processLine r l = (r, showAllOutput r, false) := by
  obtain ⟨u, hu⟩ := (startsWithStr_iff _ _).mp h
  have hexit : eqIgnoreCase (trimStr l) ['e', 'x', 'i', 't'] = false := by
    rw [Bool.eq_false_iff]
    intro hh
    rw [eqIgnoreCase_iff] at hh
    have : toLowerS ['e', 'x', 'i', 't'] = ['e', 'x', 'i', 't'] := by decide
    rw [this, hu] at hh
    simp at hh
  have hadd : startsWithStr (toLowerS (trimStr l)) ['a', 'd', 'd', ' '] = false := by
    rw [Bool.eq_false_iff]
    intro hh
    obtain ⟨u', hu'⟩ := (startsWithStr_iff _ _).mp hh
    rw [hu] at hu'
    simp at hu'
  simp [processLine, hexit, hadd, h]

theorem processLine_addPrefixed (r : Registry) (l : Str)
    (h : startsWithStr (toLowerS (trimStr l)) ['a', 'd', 'd', ' '] = true) :
    (((4 ≤ (splitWS (trimStr l)).length ∧
        eqIgnoreCase ((splitWS (trimStr l)).getD 2 []) ['t', 'o'] = true) →
      processLine r l =
        (addEmp r ((splitWS (trimStr l)).getD 3 []) ((splitWS (trimStr l)).getD 1 []),
         [Msg.added ((splitWS (trimStr l)).getD 1 []) ((splitWS (trimStr l)).getD 3 [])],
         false)) ∧
     (¬(4 ≤ (splitWS (trimStr l)).length ∧
        eqIgnoreCase ((splitWS (trimStr l)).getD 2 []) ['t', 'o'] = true) →
      processLine r l = (r, [Msg.invalidFormat], false))) := by
  obtain ⟨u, hu⟩ := (startsWithStr_iff _ _).mp h
  have hexit : eqIgnoreCase (trimStr l) ['e', 'x', 'i', 't'] = false := by
    rw [Bool.eq_false_iff]
    intro hh
    rw [eqIgnoreCase_iff] at hh
    have : toLowerS ['e', 'x', 'i', 't'] = ['e', 'x', 'i', 't'] := by decide
    rw [this, hu] at hh
    simp at hh
  constructor
  · intro hc
    simp only [processLine, hexit, Bool.false_eq_true, if_false, h, if_true]
    rw [if_pos hc]
  · intro hc
    simp only [processLine, hexit, Bool.false_eq_true, if_false, h, if_true]
    rw [if_neg hc]

theorem processLine_unknown (r : Registry) (l : Str)
    (h1 : eqIgnoreCase (trimStr l) ['e', 'x', 'i', 't'] = false)
    (h2 : startsWithStr (toLowerS (trimStr l)) ['a', 'd', 'd', ' '] = false)
    (h3 : startsWithStr (toLowerS (trimStr l)) ['s', 'h', 'o', 'w', ' '] = false) :
    processLine r l = (r, [Msg.unknown], false) := by
  have h4 : startsWithStr (toLowerS (trimStr l))
      ['s', 'h', 'o', 'w', ' ', 'a', 'l', 'l'] = false := by
    rw [Bool.eq_false_iff]
    intro hh
    obtain ⟨u, hu⟩ := (startsWithStr_iff _ _).mp hh
    have : startsWithStr (toLowerS (trimStr l)) ['s', 'h', 'o', 'w', ' '] = true := by
      rw [startsWithStr_iff]
      exact ⟨['a', 'l', 'l'] ++ u, by simpa using hu⟩
    rw [this] at h3
    exact absurd h3 (by simp)
  simp [processLine, h1, h2, h3, h4]

theorem first_token_add_no_space_unknown (r : Registry) (l : Str)
    (h0 : eqIgnoreCase ((splitWS (trimStr l)).getD 0 []) ['a', 'd', 'd'] = true)
    (hn : startsWithStr (toLowerS (trimStr l)) ['a', 'd', 'd', ' '] = false) :
    processLine r l = (r, [Msg.unknown], false) := by
  cases htl : trimStr l with
  | nil =>
    rw [htl] at h0
    exact absurd h0 (by decide)
  | cons c cs =>
    have hc : c.isWhitespace = false :=
      trimStr_head_not_ws l c (by rw [htl]; rfl)
    have htoklow : toLowerS (c :: cs.takeWhile (fun d => !d.isWhitespace)) =
        ['a', 'd', 'd'] := by
      rw [eqIgnoreCase_iff] at h0
      rw [htl, splitWS_cons_not_ws c cs hc] at h0
      have hlit : toLowerS ['a', 'd', 'd'] = ['a', 'd', 'd'] := by decide
      rw [hlit] at h0
      exact h0
    have hpre : toLowerS (trimStr l) =
        ['a', 'd', 'd'] ++ toLowerS (cs.dropWhile (fun d => !d.isWhitespace)) := by
      have hdecomp : c :: cs =
          (c :: cs.takeWhile (fun d => !d.isWhitespace)) ++
            cs.dropWhile (fun d => !d.isWhitespace) := by
        rw [List.cons_append, List.takeWhile_append_dropWhile]
      rw [htl]
      conv_lhs => rw [hdecomp]
      rw [toLowerS_append, htoklow]
    have hexit : eqIgnoreCase (trimStr l) ['e', 'x', 'i', 't'] = false := by
      rw [Bool.eq_false_iff]
      intro hh
      rw [eqIgnoreCase_iff] at hh
      have hlit : toLowerS ['e', 'x', 'i', 't'] = ['e', 'x', 'i', 't'] := by decide
      rw [hlit, hpre] at hh
      simp at hh
    have hshow : startsWithStr (toLowerS (trimStr l)) ['s', 'h', 'o', 'w', ' '] = false := by
      rw [Bool.eq_false_iff]
      intro hh
      obtain ⟨u, hu⟩ := (startsWithStr_iff _ _).mp hh
      rw [hpre] at hu
      simp at hu
    exact processLine_unknown r l hexit hn hshow

theorem processLine_showMalformed (r : Registry) (l : Str)
    (h1 : startsWithStr (toLowerS (trimStr l)) ['s', 'h', 'o', 'w', ' '] = true)
    (h2 : startsWithStr (toLowerS (trimStr l))
      ['s', 'h', 'o', 'w', ' ', 'a', 'l', 'l'] = false)
    (h3 : (splitWS (trimStr l)).length ≠ 2) :
    processLine r l = (r, [], false) := by
  obtain ⟨u, hu⟩ := (startsWithStr_iff _ _).mp h1
  have hexit : eqIgnoreCase (trimStr l) ['e', 'x', 'i', 't'] = false := by
    rw [Bool.eq_false_iff]
    intro hh
    rw [eqIgnoreCase_iff] at hh
    have : toLowerS ['e', 'x', 'i', 't'] = ['e', 'x', 'i', 't'] := by decide
    rw [this, hu] at hh
    simp at hh
  have hadd : startsWithStr (toLowerS (trimStr l)) ['a', 'd', 'd', ' '] = false := by
    rw [Bool.eq_false_iff]
    intro hh
    obtain ⟨u', hu'⟩ := (startsWithStr_iff _ _).mp hh
    rw [hu] at hu'
    simp at hu'
  simp [processLine, hexit, hadd, h2, h1, h3]

theorem processLine_frame (r : Registry) (l : Str)
    (h : acceptedAdd l = false) :
    (processLine r l).1 = r := by
  unfold acceptedAdd at h
  simp only [processLine]
  split
  · rfl
  · split
    · split
      · rename_i hnexit hadd hcond
        exfalso
        rw [Bool.and_eq_false_iff, Bool.and_eq_false_iff, Bool.and_eq_false_iff] at h
        rcases h with ((hx | hx) | hx) | hx
        · rw [Bool.not_eq_false'] at hx
          rw [hx] at hnexit
          exact hnexit rfl
        · rw [hadd] at hx
          exact absurd hx (by simp)
        · rw [decide_eq_false_iff_not] at hx
          exact hx hcond.1
        · rw [hx] at hcond
          exact absurd hcond.2 (by simp)
      · rfl
    · split
      · rfl
      · split
        · split
          · split <;> rfl
          · rfl
        · rfl

theorem processLine_show_frame (r : Registry) (l : Str)
    (h : startsWithStr (toLowerS (trimStr l)) ['s', 'h', 'o', 'w', ' '] = true) :
    (processLine r l).1 = r := by
  apply processLine_frame
  unfold acceptedAdd
  have hadd : startsWithStr (toLowerS (trimStr l)) ['a', 'd', 'd', ' '] = false := by
    rw [Bool.eq_false_iff]
    intro hh
    obtain ⟨u, hu⟩ := (startsWithStr_iff _ _).mp h
    obtain ⟨u', hu'⟩ := (startsWithStr_iff _ _).mp hh
    rw [hu] at hu'
    simp at hu'
  simp [hadd]

theorem processLine_mutation (r : Registry) (l : Str)
    (h : (processLine r l).1 ≠ r) : acceptedAdd l = true := by
  by_contra hc
  rw [Bool.not_eq_true] at hc
  exact h (processLine_frame r l hc)

/-! ### Loop-level lemmas -/

theorem runLoop_cons_exit (r : Registry) (l : Str) (ls : List Str)
    (h : eqIgnoreCase (trimStr l) ['e', 'x', 'i', 't'] = true) :
    runLoop r (l :: ls) = (r, [Msg.prompt], true) := by
  simp [runLoop, processLine_exit r l h]

theorem runLoop_cons_continue (r : Registry) (l : Str) (ls : List Str)
    (h : (processLine r l).2.2 = false) :
    runLoop r (l :: ls) =
      ((runLoop (processLine r l).1 ls).1,
       Msg.prompt :: (processLine r l).2.1 ++ (runLoop (processLine r l).1 ls).2.1,
       (runLoop (processLine r l).1 ls).2.2) := by
  simp [runLoop, h]

theorem runLoop_adds (adds : List (Str × Str)) : ∀ r : Registry,
    (∀ p ∈ adds, isToken p.1 = true ∧ isToken p.2 = true) →
    (runLoop r (adds.map (fun p => mkAddLine p.1 p.2))).1 =
      adds.foldl (fun r p => addEmp r p.2 p.1) r := by
  induction adds with
  | nil => intro r _; rfl
  | cons p rest ih =>
    intro r htok
    obtain ⟨hn, hd⟩ := htok p (by simp)
    have hline : mkAddLine p.1 p.2 =
        ['a', 'd', 'd'] ++ ' ' :: (p.1 ++ ' ' :: (['t', 'o'] ++ ' ' :: p.2)) := by
      simp [mkAddLine]
    have hstep : processLine r (mkAddLine p.1 p.2) =
        (addEmp r p.2 p.1, [Msg.added p.1 p.2], false) := by
      rw [hline]
      exact processLine_addLine r _ _ _ _ (by decide) (by decide) hn hd
        (by decide) (by decide)
    rw [List.map_cons, runLoop_cons_continue _ _ _ (by rw [hstep]), hstep,
      List.foldl_cons]
    exact ih (addEmp r p.2 p.1) (fun q hq => htok q (by simp [hq]))

/-! ### The nonempty-department invariant -/

theorem allDeptsNonempty_addEmp (r : Registry) (d n : Str)
    (h : allDeptsNonempty r = true) : allDeptsNonempty (addEmp r d n) = true := by
  unfold allDeptsNonempty at h ⊢
  rw [List.all_eq_true] at h ⊢
  unfold addEmp
  split
  · intro p hp
    rw [List.mem_map] at hp
    obtain ⟨q, hq, hqp⟩ := hp
    by_cases hqd : (q.1 == d) = true
    · rw [if_pos hqd] at hqp
      rw [← hqp]
      simp
    · rw [if_neg hqd] at hqp
      rw [← hqp]
      exact h q hq
  · intro p hp
    rw [List.mem_append] at hp
    rcases hp with hp | hp
    · exact h p hp
    · rw [List.mem_singleton] at hp
      rw [hp]
      simp

theorem processLine_inv (r : Registry) (l : Str)
    (h : allDeptsNonempty r = true) :
    allDeptsNonempty (processLine r l).1 = true := by
  simp only [processLine]
  split
  · exact h
  · split
    · split
      · exact allDeptsNonempty_addEmp r _ _ h
      · exact h
    · split
      · exact h
      · split
        · split
          · split
            · exact h
            · exact h
          · exact h
        · exact h

theorem runLoop_inv (ls : List Str) : ∀ r : Registry,
    allDeptsNonempty r = true → allDeptsNonempty (runLoop r ls).1 = true := by
  induction ls with
  | nil => intro r h; exact h
  | cons l ls ih =>
    intro r h
    simp only [runLoop]
    split
    · exact processLine_inv r l h
    · exact ih _ (processLine_inv r l h)

/-! ### `pig_latin` lemmas -/

theorem splitWSAux_ne_nil : ∀ (s cur : Str) (w : Str),
    w ∈ splitWSAux s cur → w ≠ [] := by
  intro s
  induction s with
  | nil =>
    intro cur w hw
    unfold splitWSAux at hw
    split at hw
    · simp at hw
    · rename_i hcur
      rw [List.mem_singleton] at hw
      rw [hw]
      simp only [ne_eq, List.reverse_eq_nil_iff]
      intro hc
      rw [hc] at hcur
      exact hcur rfl
  | cons c cs ih =>
    intro cur w hw
    unfold splitWSAux at hw
    split at hw
    · split at hw
      · exact ih [] w hw
      · rename_i hcur
        rw [List.mem_cons] at hw
        rcases hw with hw | hw
        · rw [hw]
          simp only [ne_eq, List.reverse_eq_nil_iff]
          intro hc
          rw [hc] at hcur
          exact hcur rfl
        · exact ih [] w hw
    · exact ih (c :: cur) w hw

theorem splitWS_ne_nil (s : Str) (w : Str) (hw : w ∈ splitWS s) : w ≠ [] :=
  splitWSAux_ne_nil s [] w hw

theorem pigLatinWord_isSome (w : Str) (hne : w ≠ [])
    (h : (w.headD 'a').utf8Size = 1) : (pigLatinWord w).isSome = true := by
  cases w with
  | nil => exact absurd rfl hne
  | cons c cs =>
    simp only [List.headD_cons] at h
    simp only [pigLatinWord]
    by_cases hv : c ∈ vowels
    · rw [if_pos hv]
      rfl
    · rw [if_neg hv, if_pos h]
      rfl

theorem pigLatinChunks_isSome : ∀ ws : List Str,
    (∀ w ∈ ws, (pigLatinWord w).isSome = true) →
    (pigLatinChunks ws).isSome = true := by
  intro ws
  induction ws with
  | nil => intro _; rfl
  | cons w rest ih =>
    intro h
    have hw := h w (by simp)
    have hrest := ih (fun v hv => h v (by simp [hv]))
    unfold pigLatinChunks
    cases hcw : pigLatinWord w with
    | none => rw [hcw] at hw; exact absurd hw (by simp)
    | some c =>
      cases hcr : pigLatinChunks rest with
      | none => rw [hcr] at hrest; exact absurd hrest (by simp)
      | some cs => rfl

/-! ### The claims -/

/-- C1 (counterexample): after `add Bob to Allen` and `add Eve to Sales`,
the two-token command `show Allen` does not print exactly the names
added to `Allen` (sorted): because `show allen` starts with the prefix
`show all`, the all-departments branch runs and `Eve`/`Sales` appear in
the output as well. -/
theorem show_dept_sorted_counterexample :
    (runLoop [] ["add Bob to Allen".toList, "add Eve to Sales".toList]).1 =
      [("Allen".toList, ["Bob".toList]), ("Sales".toList, ["Eve".toList])] ∧
    addedNames [("Bob".toList, "Allen".toList), ("Eve".toList, "Sales".toList)]
      "Allen".toList = ["Bob".toList] ∧
    (processLine [("Allen".toList, ["Bob".toList]), ("Sales".toList, ["Eve".toList])]
        "show Allen".toList).2.1 ≠
      Msg.deptHeader "Allen".toList ::
        (sortStrs ["Bob".toList]).map Msg.empName ∧
    Msg.empName "Eve".toList ∈
      (processLine [("Allen".toList, ["Bob".toList]), ("Sales".toList, ["Eve".toList])]
        "show Allen".toList).2.1 := by
  decide

/-- C1 (amended): for any sequence of valid `add <name> to <dept>`
commands run from the empty registry, and any department `d` that was
added to and whose lowercase form does not start with `all`, the
command `show <d>` prints exactly the multiset of names added to `d`
(duplicates preserved), sorted lexicographically ascending. -/
theorem show_dept_lists_added_names_sorted (adds : List (Str × Str)) (d : Str)
    (htok : ∀ p ∈ adds, isToken p.1 = true ∧ isToken p.2 = true)
    (hd : isToken d = true)
    (hnall : startsWithStr (toLowerS d) ['a', 'l', 'l'] = false)
    (hsome : addedNames adds d ≠ []) :
    processLine (runLoop [] (adds.map (fun p => mkAddLine p.1 p.2))).1 (mkShowLine d) =
      ((runLoop [] (adds.map (fun p => mkAddLine p.1 p.2))).1,
       Msg.deptHeader d :: (sortStrs (addedNames adds d)).map Msg.empName, false) ∧
    (sortStrs (addedNames adds d)).Perm (addedNames adds d) ∧
    List.Sorted strLeP (sortStrs (addedNames adds d)) := by
  have hreg : (runLoop [] (adds.map (fun p => mkAddLine p.1 p.2))).1 = buildReg adds :=
    runLoop_adds adds [] htok
  refine ⟨?_, sortStrs_perm _, sortStrs_sorted _⟩
  rw [hreg]
  have hget : getDept (buildReg adds) d = some (addedNames adds d) := by
    rw [getDept_buildReg, if_neg hsome]
  rw [processLine_showLine (buildReg adds) d hd hnall, hget]

/-- C1 witness: adding `B` then `A` to department `S` and showing `S`
prints the header and then `A`, `B`. -/
theorem show_dept_lists_added_names_sorted_witness :
    processLine (runLoop []
        (([((['B'] : Str), (['S'] : Str)), (['A'], ['S'])]).map
          (fun p => mkAddLine p.1 p.2))).1 (mkShowLine ['S']) =
      ((runLoop []
          (([((['B'] : Str), (['S'] : Str)), (['A'], ['S'])]).map
            (fun p => mkAddLine p.1 p.2))).1,
       Msg.deptHeader ['S'] ::
         (sortStrs (addedNames [((['B'] : Str), (['S'] : Str)), (['A'], ['S'])] ['S'])).map
           Msg.empName, false) ∧
    (sortStrs (addedNames [((['B'] : Str), (['S'] : Str)), (['A'], ['S'])] ['S'])).Perm
      (addedNames [((['B'] : Str), (['S'] : Str)), (['A'], ['S'])] ['S']) ∧
    List.Sorted strLeP
      (sortStrs (addedNames [((['B'] : Str), (['S'] : Str)), (['A'], ['S'])] ['S'])) :=
  show_dept_lists_added_names_sorted [(['B'], ['S']), (['A'], ['S'])] ['S']
    (by decide) (by decide) (by decide) (by decide)

/-- C2 (counterexample): two refutations of the claim.  `add Bob to
Sales Now` has five whitespace-separated tokens, yet it is accepted
(the source checks `parts.len() >= 4`, not an exact count): `Bob` is
added to `Sales` and a confirmation is printed, where the claim
requires a format-error message and an unchanged registry.  Conversely,
the first token of `add<TAB>Bob to Sales` is `add` and the line has
exactly 4 tokens with the 3rd equal to `to`, yet it is not accepted and
no format-error is printed either: the source tests
`starts_with("add ")` with a literal space, so the line falls to the
unknown-command arm. -/
theorem add_exactly_four_tokens_counterexample :
    (splitWS (trimStr "add Bob to Sales Now".toList)).length = 5 ∧
    processLine [] "add Bob to Sales Now".toList =
      ([("Sales".toList, ["Bob".toList])],
       [Msg.added "Bob".toList "Sales".toList], false) ∧
    splitWS (trimStr "add\tBob to Sales".toList) =
      ["add".toList, "Bob".toList, "to".toList, "Sales".toList] ∧
    processLine [] "add\tBob to Sales".toList = ([], [Msg.unknown], false) := by
  decide

/-- C2 (amended): an input line whose trimmed, ASCII-lowercased form
starts with the four characters `add ` (the verb followed by a space)
is accepted if and only if it has at least 4 whitespace-separated
tokens and the 3rd token equals `to` case-insensitively (tokens beyond
the 4th are ignored); on acceptance the 2nd token is appended to the
4th token's department (created if absent) and a confirmation is
printed; otherwise a format-error message is printed and the registry
is unchanged.  An input line whose first whitespace-separated token
case-insensitively equals `add` but whose lowercased trimmed form does
not start with `add ` (bare `add`, or `add` followed by a tab or other
non-space whitespace) instead prints the unknown-command message and
leaves the registry unchanged. -/
theorem add_accepts_iff_four_plus_tokens (r : Registry) (l : Str) :
    ((startsWithStr (toLowerS (trimStr l)) ['a', 'd', 'd', ' '] = true →
      (4 ≤ (splitWS (trimStr l)).length ∧
        eqIgnoreCase ((splitWS (trimStr l)).getD 2 []) ['t', 'o'] = true) →
      processLine r l =
        (addEmp r ((splitWS (trimStr l)).getD 3 []) ((splitWS (trimStr l)).getD 1 []),
         [Msg.added ((splitWS (trimStr l)).getD 1 []) ((splitWS (trimStr l)).getD 3 [])],
         false)) ∧
     (startsWithStr (toLowerS (trimStr l)) ['a', 'd', 'd', ' '] = true →
      ¬(4 ≤ (splitWS (trimStr l)).length ∧
        eqIgnoreCase ((splitWS (trimStr l)).getD 2 []) ['t', 'o'] = true) →
      processLine r l = (r, [Msg.invalidFormat], false)) ∧
     (eqIgnoreCase ((splitWS (trimStr l)).getD 0 []) ['a', 'd', 'd'] = true →
      startsWithStr (toLowerS (trimStr l)) ['a', 'd', 'd', ' '] = false →
      processLine r l = (r, [Msg.unknown], false))) :=
  ⟨fun h hc => (processLine_addPrefixed r l h).1 hc,
   fun h hc => (processLine_addPrefixed r l h).2 hc,
   fun h0 hn => first_token_add_no_space_unknown r l h0 hn⟩

/-- C2 witness: `add Bob to Sales` is accepted and appends `Bob` to
`Sales`; `add Bob Sales` (missing `to`) is rejected with a format-error
message and leaves the registry unchanged; bare `add` prints the
unknown-command message. -/
theorem add_accepts_iff_four_plus_tokens_witness :
    processLine [] "add Bob to Sales".toList =
      (addEmp [] "Sales".toList "Bob".toList,
       [Msg.added "Bob".toList "Sales".toList], false) ∧
    processLine [] "add Bob Sales".toList = ([], [Msg.invalidFormat], false) ∧
    processLine [] "add".toList = ([], [Msg.unknown], false) :=
  ⟨(add_accepts_iff_four_plus_tokens [] "add Bob to Sales".toList).1
      (by decide) (by decide),
   (add_accepts_iff_four_plus_tokens [] "add Bob Sales".toList).2.1
      (by decide) (by decide),
   (add_accepts_iff_four_plus_tokens [] "add".toList).2.2
      (by decide) (by decide)⟩

/-- C3 (counterexample): `show a b` is not the exit command, not an
`add` command, not `show all`, and not a two-token `show <department>`
command, yet the loop prints nothing at all (the source's `show `
branch is silent when the token count is not 2), instead of the
claimed unknown-command message. -/
theorem unknown_command_counterexample :
    eqIgnoreCase (trimStr "show a b".toList) ['e', 'x', 'i', 't'] = false ∧
    startsWithStr (toLowerS (trimStr "show a b".toList)) ['a', 'd', 'd', ' '] = false ∧
    startsWithStr (toLowerS (trimStr "show a b".toList))
      ['s', 'h', 'o', 'w', ' ', 'a', 'l', 'l'] = false ∧
    (splitWS (trimStr "show a b".toList)).length ≠ 2 ∧
    processLine [] "show a b".toList = ([], [], false) := by
  decide

/-- C3 (amended): an input that is not the exit command and whose
lowercased trimmed form starts with neither `add ` nor `show ` prints
exactly the unknown-command message and continues; but an input
starting with `show ` that is not a `show all` form and does not split
into exactly two tokens prints nothing at all (and also continues). -/
theorem unknown_command_or_silent_show (r : Registry) (l : Str) :
    ((eqIgnoreCase (trimStr l) ['e', 'x', 'i', 't'] = false →
      startsWithStr (toLowerS (trimStr l)) ['a', 'd', 'd', ' '] = false →
      startsWithStr (toLowerS (trimStr l)) ['s', 'h', 'o', 'w', ' '] = false →
      processLine r l = (r, [Msg.unknown], false)) ∧
     (startsWithStr (toLowerS (trimStr l)) ['s', 'h', 'o', 'w', ' '] = true →
      startsWithStr (toLowerS (trimStr l)) ['s', 'h', 'o', 'w', ' ', 'a', 'l', 'l'] = false →
      (splitWS (trimStr l)).length ≠ 2 →
      processLine r l = (r, [], false))) :=
  ⟨processLine_unknown r l, processLine_showMalformed r l⟩

/-- C3 witness: `hello` prints the unknown-command message; `show a b`
prints nothing. -/
theorem unknown_command_or_silent_show_witness :
    processLine [] "hello".toList = ([], [Msg.unknown], false) ∧
    processLine [] "show a b".toList = ([], [], false) :=
  ⟨(unknown_command_or_silent_show [] "hello".toList).1
      (by decide) (by decide) (by decide),
   (unknown_command_or_silent_show [] "show a b".toList).2
      (by decide) (by decide) (by decide)⟩

/-- C4: keyword matching is case-insensitive while values are
case-sensitive: `ADD <n> TO <d>` behaves exactly like `add <n> to <d>`
(same registry effect and same confirmation); and on a registry storing
department `Sales` but no department `SALES`, `show SALES` takes the
not-found outcome rather than finding `Sales`. -/
theorem keywords_case_insensitive_values_case_sensitive
    (r r' : Registry) (n d : Str) (names : List Str)
    (hn : isToken n = true) (hd : isToken d = true)
    (_hstored : getDept r' ['S', 'a', 'l', 'e', 's'] = some names)
    (hupper : getDept r' ['S', 'A', 'L', 'E', 'S'] = none) :
    processLine r (mkAddLineU n d) = processLine r (mkAddLine n d) ∧
    processLine r (mkAddLine n d) = (addEmp r d n, [Msg.added n d], false) ∧
    processLine r' (mkShowLine ['S', 'A', 'L', 'E', 'S']) = (r', [Msg.notFound], false) := by
  have hlower : processLine r (mkAddLine n d) = (addEmp r d n, [Msg.added n d], false) := by
    have hline : mkAddLine n d =
        ['a', 'd', 'd'] ++ ' ' :: (n ++ ' ' :: (['t', 'o'] ++ ' ' :: d)) := by
      simp [mkAddLine]
    rw [hline]
    exact processLine_addLine r _ _ _ _ (by decide) (by decide) hn hd
      (by decide) (by decide)
  have hupperline : processLine r (mkAddLineU n d) = (addEmp r d n, [Msg.added n d], false) := by
    have hline : mkAddLineU n d =
        ['A', 'D', 'D'] ++ ' ' :: (n ++ ' ' :: (['T', 'O'] ++ ' ' :: d)) := by
      simp [mkAddLineU]
    rw [hline]
    exact processLine_addLine r _ _ _ _ (by decide) (by decide) hn hd
      (by decide) (by decide)
  refine ⟨hupperline.trans hlower.symm, hlower, ?_⟩
  have hshow := processLine_showLine r' ['S', 'A', 'L', 'E', 'S'] (by decide) (by decide)
  rw [hupper] at hshow
  exact hshow

/-- C4 witness: `ADD Alice TO Sales` equals `add Alice to Sales` on the
empty registry, and `show SALES` on a registry holding only `Sales`
reports not-found. -/
theorem keywords_case_witness :
    processLine [] (mkAddLineU "Alice".toList "Sales".toList) =
      processLine [] (mkAddLine "Alice".toList "Sales".toList) ∧
    processLine [] (mkAddLine "Alice".toList "Sales".toList) =
      (addEmp [] "Sales".toList "Alice".toList,
       [Msg.added "Alice".toList "Sales".toList], false) ∧
    processLine [("Sales".toList, ["Eve".toList])] (mkShowLine ['S', 'A', 'L', 'E', 'S']) =
      ([("Sales".toList, ["Eve".toList])], [Msg.notFound], false) :=
  keywords_case_insensitive_values_case_sensitive [] [("Sales".toList, ["Eve".toList])]
    "Alice".toList "Sales".toList ["Eve".toList]
    (by decide) (by decide) (by decide) (by decide)

/-- C5 (counterexample): on the registry holding only `Sales`, the
two-token input `show Allen` names a department that is not a key, yet
it does not print the not-found message: `show allen` starts with
`show all`, so the all-departments listing runs instead. -/
theorem show_missing_dept_counterexample :
    getDept [("Sales".toList, ["Eve".toList])] "Allen".toList = none ∧
    (splitWS (trimStr (mkShowLine "Allen".toList))).length = 2 ∧
    processLine [("Sales".toList, ["Eve".toList])] (mkShowLine "Allen".toList) =
      ([("Sales".toList, ["Eve".toList])],
       [Msg.deptHeader "Sales".toList, Msg.empName "Eve".toList], false) ∧
    ([Msg.deptHeader "Sales".toList, Msg.empName "Eve".toList] : List Msg) ≠
      [Msg.notFound] := by
  decide

/-- C5 (amended): for every registry and every token `d` that is not a
key of the registry and whose lowercase form does not start with `all`,
`show <d>` prints the not-found message, leaves the registry unchanged,
and never crashes. -/
theorem show_missing_dept_not_found (r : Registry) (d : Str)
    (hd : isToken d = true)
    (hnall : startsWithStr (toLowerS d) ['a', 'l', 'l'] = false)
    (hnone : getDept r d = none) :
    processLine r (mkShowLine d) = (r, [Msg.notFound], false) := by
  have h := processLine_showLine r d hd hnall
  rw [hnone] at h
  exact h

/-- C5 witness: `show Engineering` on the empty registry reports
not-found. -/
theorem show_missing_dept_not_found_witness :
    processLine [] (mkShowLine "Engineering".toList) = ([], [Msg.notFound], false) :=
  show_missing_dept_not_found [] "Engineering".toList (by decide) (by decide) (by decide)

/-- C6: the everything-nonempty invariant: if every department of the
registry has at least one employee, the same holds after processing any
single command and after any run of the loop; since departments are
created only together with an appended name and nothing is ever
removed, a department can never become empty. -/
theorem departments_never_empty (r : Registry) (l : Str) (ls : List Str)
    (h : allDeptsNonempty r = true) :
    allDeptsNonempty (processLine r l).1 = true ∧
    allDeptsNonempty (runLoop r ls).1 = true :=
  ⟨processLine_inv r l h, runLoop_inv ls r h⟩

/-- C6 witness: the invariant holds after an `add` command and a short
run of the loop from a nonempty registry. -/
theorem departments_never_empty_witness :
    allDeptsNonempty
      (processLine [("Sales".toList, ["Eve".toList])] "add Bob to HR".toList).1 = true ∧
    allDeptsNonempty
      (runLoop [("Sales".toList, ["Eve".toList])]
        ["add Bob to HR".toList, "show all".toList]).1 = true :=
  departments_never_empty [("Sales".toList, ["Eve".toList])] "add Bob to HR".toList
    ["add Bob to HR".toList, "show all".toList] (by decide)

/-- C7: the frame property: any input whose lowercased trimmed form
starts with `show ` (this covers `show all`, `show <dept>` found or
not, and malformed `show` inputs) leaves the registry exactly
unchanged, and any input at all that changes the registry is an
accepted `add` command. -/
theorem only_accepted_add_mutates (r : Registry) (l : Str) :
    (startsWithStr (toLowerS (trimStr l)) ['s', 'h', 'o', 'w', ' '] = true →
      (processLine r l).1 = r) ∧
    ((processLine r l).1 ≠ r → acceptedAdd l = true) :=
  ⟨processLine_show_frame r l, processLine_mutation r l⟩

/-- C7 witness: `show Sales` leaves a registry unchanged, and the
mutating input `add Bob to Sales` is an accepted add. -/
theorem only_accepted_add_mutates_witness :
    (processLine [("Sales".toList, ["Eve".toList])] "show Sales".toList).1 =
      [("Sales".toList, ["Eve".toList])] ∧
    acceptedAdd "add Bob to Sales".toList = true :=
  ⟨(only_accepted_add_mutates [("Sales".toList, ["Eve".toList])] "show Sales".toList).1
      (by decide),
   (only_accepted_add_mutates [] "add Bob to Sales".toList).2 (by decide)⟩

/-- C8: the loop terminates exactly on an input whose trimmed form
case-insensitively equals `exit`; on that input it stops immediately
with no further output or prompts beyond the prompt of that iteration,
and on any other input it performs the command's output and continues
with the remaining input. -/
theorem loop_terminates_iff_exit (r : Registry) (l : Str) (ls : List Str) :
    ((processLine r l).2.2 = true ↔
      eqIgnoreCase (trimStr l) ['e', 'x', 'i', 't'] = true) ∧
    (eqIgnoreCase (trimStr l) ['e', 'x', 'i', 't'] = true →
      runLoop r (l :: ls) = (r, [Msg.prompt], true)) ∧
    ((processLine r l).2.2 = false →
      runLoop r (l :: ls) =
        ((runLoop (processLine r l).1 ls).1,
         Msg.prompt :: (processLine r l).2.1 ++ (runLoop (processLine r l).1 ls).2.1,
         (runLoop (processLine r l).1 ls).2.2)) :=
  ⟨processLine_term_iff r l, runLoop_cons_exit r l ls, runLoop_cons_continue r l ls⟩

/-- C8 witness: ` EXIT ` stops the loop at once even with input
remaining, and a non-exit input continues into the rest of the loop. -/
theorem loop_terminates_iff_exit_witness :
    runLoop [] (" EXIT ".toList :: ["add Bob to Sales".toList]) =
      ([], [Msg.prompt], true) ∧
    runLoop [] ("hello".toList :: []) =
      ((runLoop (processLine [] "hello".toList).1 []).1,
       Msg.prompt :: (processLine [] "hello".toList).2.1 ++
         (runLoop (processLine [] "hello".toList).1 []).2.1,
       (runLoop (processLine [] "hello".toList).1 []).2.2) :=
  ⟨(loop_terminates_iff_exit [] " EXIT ".toList ["add Bob to Sales".toList]).2.1
      (by decide),
   (loop_terminates_iff_exit [] "hello".toList []).2.2 (by decide)⟩

/-- C9: the `show all` case is checked before the `show <department>`
case: every input whose lowercased trimmed form starts with `show all`
runs the all-departments listing on an unchanged registry and never the
single-department lookup — so a department stored under the exact name
`all` can never be displayed individually by `show all`. -/
theorem show_all_checked_first (r : Registry) (l : Str)
    (h : startsWithStr (toLowerS (trimStr l))
      ['s', 'h', 'o', 'w', ' ', 'a', 'l', 'l'] = true) :
    processLine r l = (r, showAllOutput r, false) :=
  processLine_showAllLine r l h

/-- C9 witness: with a department literally named `all` (and another
department present), `show all` produces the all-departments listing,
not the individual view of `all`. -/
theorem show_all_checked_first_witness :
    processLine [("all".toList, ["Bob".toList]), ("HR".toList, ["Zoe".toList])]
        "show all".toList =
      ([("all".toList, ["Bob".toList]), ("HR".toList, ["Zoe".toList])],
       showAllOutput [("all".toList, ["Bob".toList]), ("HR".toList, ["Zoe".toList])],
       false) :=
  show_all_checked_first [("all".toList, ["Bob".toList]), ("HR".toList, ["Zoe".toList])]
    "show all".toList (by decide)

/-- C10: `pig_latin` is total on sentences whose words all begin with a
single-byte (ASCII) character, but panics (modelled by `none`) on a
sentence whose first word begins with a multi-byte character, because
`&word[1..]` slices inside that character's UTF-8 encoding. -/
theorem pig_latin_ascii_total_multibyte_panics :
    (∀ s : Str,
      (splitWS s).all (fun w => (w.headD 'a').utf8Size = 1) = true →
      (pig_latin s).isSome = true) ∧
    pig_latin ['ü', 'b', 'e', 'r'] = none := by
  constructor
  · intro s h
    rw [List.all_eq_true] at h
    have hchunks : (pigLatinChunks (splitWS s)).isSome = true := by
      apply pigLatinChunks_isSome
      intro w hw
      exact pigLatinWord_isSome w (splitWS_ne_nil s w hw) (by simpa using h w hw)
    unfold pig_latin
    cases hc : pigLatinChunks (splitWS s) with
    | none => rw [hc] at hchunks; exact absurd hchunks (by simp)
    | some chunks => rfl
  · decide

/-- C10 witness: an all-ASCII sentence is transformed without panic. -/
theorem pig_latin_ascii_total_witness :
    (pig_latin "hello apple world".toList).isSome = true :=
  pig_latin_ascii_total_multibyte_panics.1 "hello apple world".toList (by decide)

end Task1
